import Mathlib

/-!
# Verification of the collection-js library

A shallow embedding of the library's `List` (src part_000), `Iterable`
(src part_001) and their traversal operations, together with theorems
settling the frozen claims about the natural-language specification.

JavaScript values are modelled by the inductive type `JSVal`, covering the
value universe the library's operations and the claims exercise:
`null`, `undefined`, booleans, (integer) numbers, strings, and plain
objects identified by an allocation id (object equality in JS is reference
equality, captured here by id equality).  JS numbers are modelled as
integers: every claim and every test of the repository uses integral
numbers only.
-/

namespace CollectionJS

/-- The universe of JavaScript values used by the embedding. -/
inductive JSVal where
  | null : JSVal
  | undefVal : JSVal
  | bool : Bool → JSVal
  | num : Int → JSVal
  | str : String → JSVal
  | obj : Nat → JSVal
deriving DecidableEq, Repr, Inhabited

namespace JSVal

/-- JS truthiness (`if (v)`), restricted to the modelled universe:
`null`, `undefined`, `false`, `0` and `''` are falsy, everything else
(including every object) is truthy. -/
def truthy : JSVal → Bool
  | .null => false
  | .undefVal => false
  | .bool b => b
  | .num n => n ≠ 0
  | .str s => s ≠ ""
  | .obj _ => true

/-- Whether the value is a string. -/
def isStr : JSVal → Bool
  | .str _ => true
  | _ => false

/-- Whether the value is a number. -/
def isNum : JSVal → Bool
  | .num _ => true
  | _ => false

end JSVal

/-- JS `ToNumber` on the modelled universe; `none` models `NaN`.
String parsing is restricted to the optional-sign integer numerals this
development exercises (the empty string converts to `0` as in JS). -/
def jsToNumber : JSVal → Option Int
  | .null => some 0
  | .undefVal => none
  | .bool b => some (if b then 1 else 0)
  | .num n => some n
  | .str s => if s = "" then some 0 else s.toInt?
  | .obj _ => none

/-- Lexicographic order on the character lists underlying strings,
comparing code points; this models the code-unit comparison JS performs
for `<` on two strings (identical on the repertoire used here). -/
def strLtB : List Char → List Char → Bool
  | [], [] => false
  | [], _ :: _ => true
  | _ :: _, [] => false
  | a :: as, b :: bs =>
    if a.toNat < b.toNat then true
    else if b.toNat < a.toNat then false
    else strLtB as bs

/-- JS `<` (abstract relational comparison) on the modelled universe:
two strings compare lexicographically, otherwise both sides are converted
to numbers and compared; `NaN` on either side yields `false`. -/
def jsLt : JSVal → JSVal → Bool
  | .str a, .str b => strLtB a.data b.data
  | a, b =>
    match jsToNumber a, jsToNumber b with
    | some x, some y => decide (x < y)
    | _, _ => false

/-- JS `String.prototype.toUpperCase`, applied by `sorted` under the
`ignoreCase` option.  On a non-string the host would throw a `TypeError`;
the theorems below only apply this to strings. -/
def jsToUpperCase : JSVal → JSVal
  | .str s => .str s.toUpper
  | v => v

/-- Reading `items[i]` on a JS array: an out-of-range or negative index
yields `undefined`. -/
def jsIndex (l : List JSVal) (i : Int) : JSVal :=
  if h : 0 ≤ i ∧ i < (l.length : Int) then
    l.get ⟨i.toNat, by omega⟩
  else .undefVal

/-! ## List (src part_000): index-based mutation -/

/-- The message thrown by `List.prototype._assertRange`; the reported size
is `size() - 1`, exactly as in the source. -/
def rangeErrorMsg (index : Int) (size : Nat) : String :=
  "Illegal insertion at index " ++ toString index ++ " in List with size "
    ++ toString ((size : Int) - 1)

/-- `List.prototype._assertRange`: throws iff `index < 0 || index > size()`.
Note the bound is `size()` inclusive. -/
def assertRangeFails (size : Nat) (index : Int) : Bool :=
  index < 0 || (size : Int) < index

/-- `List.prototype.addAt(item, index)`: after `_assertRange`, the source
runs `items.splice(index, 0, item)`, inserting `item` at `index`.
The mutated backing array is returned as the new list; an `error` result
models the thrown exception (the caller's array is left untouched). -/
def addAt (l : List JSVal) (item : JSVal) (index : Int) : Except String (List JSVal) :=
  if assertRangeFails l.length index then .error (rangeErrorMsg index l.length)
  else .ok (l.take index.toNat ++ item :: l.drop index.toNat)

/-- `List.prototype.update(index, item)`: after `_assertRange` (which
accepts `index == size()`), the source reads `previousItem = items[index]`
and, when `previousItem !== item`, assigns `items[index] = item`.
An assignment at `index == length` grows the array by one (JS array
element-set semantics); the assertion rules out any larger index. -/
def update (l : List JSVal) (index : Int) (item : JSVal) : Except String (List JSVal) :=
  if assertRangeFails l.length index then .error (rangeErrorMsg index l.length)
  else
    let previous := jsIndex l index
    if previous ≠ item then
      .ok (l.take index.toNat ++ item :: l.drop (index.toNat + 1))
    else .ok l

/-- `items.splice(i, 1)` used by `removeIf`: removes the element at `i`
when `i` is in range and removes nothing otherwise. -/
def spliceRemove (l : List JSVal) (i : Nat) : List JSVal :=
  if i < l.length then l.take i ++ l.drop (i + 1) else l

/-- The loop of `List.prototype.removeIf(predicate)`, with explicit fuel.
The source caches `length = items.length` before the loop and never
refreshes it; when the predicate matches, the item is pushed onto
`removed`, spliced out, and `i` is left unchanged (`i--` then `i++`).
`none` models a run that does not finish within `fuel` iterations. -/
def removeIfLoop (p : JSVal → Bool) (length0 : Nat) :
    Nat → Nat → List JSVal → List JSVal → Option (List JSVal × List JSVal)
  | 0, _, _, _ => none
  | fuel + 1, i, cur, removed =>
    if i < length0 then
      let x := jsIndex cur (i : Int)
      if p x then removeIfLoop p length0 fuel i (spliceRemove cur i) (removed ++ [x])
      else removeIfLoop p length0 fuel (i + 1) cur removed
    else some (cur, removed)

/-- `List.prototype.removeIf(predicate)` with fuel: returns the final
backing array and the removed items, or `none` when the loop has not
terminated after `fuel` iterations. -/
def removeIf (p : JSVal → Bool) (items : List JSVal) (fuel : Nat) :
    Option (List JSVal × List JSVal) :=
  removeIfLoop p items.length fuel 0 items []

/-- `List.prototype._defaultSortFunction`: `(a < b) ? -1 : (a > b) ? 1 : 0`
with JS `<` / `>`. -/
def defaultSortFunction (a b : JSVal) : Int :=
  if jsLt a b then -1 else if jsLt b a then 1 else 0

/-- The binary-search loop of `List.prototype.insert`:
`while (low < high) { mid = (low + high) >> 1;
  sortFunction(item, items[mid]) > 0 ? low = mid + 1 : high = mid; }`. -/
def insertLoop (C : JSVal → JSVal → Int) (x : JSVal) (l : List JSVal) :
    Nat → Nat → Nat
  | low, high =>
    if low < high then
      let mid := (low + high) / 2
      if 0 < C x (jsIndex l (mid : Int)) then insertLoop C x l (mid + 1) high
      else insertLoop C x l low mid
    else low
termination_by low high => high - low
decreasing_by all_goals omega

/-- `List.prototype.insert(item, sortFunction)`: binary search for the
insertion point, then `addAt(item, low)`. -/
def insert (C : JSVal → JSVal → Int) (x : JSVal) (l : List JSVal) :
    Except String (List JSVal) :=
  addAt l x (insertLoop C x l 0 l.length : Nat)

/-- `insert` with the optional comparator argument:
`sortFunction = sortFunction || this._defaultSortFunction`. -/
def insertOpt (C? : Option (JSVal → JSVal → Int)) (x : JSVal) (l : List JSVal) :
    Except String (List JSVal) :=
  insert (C?.getD defaultSortFunction) x l

/-! ## Iterable (src part_001): traversal protocol -/

/-- `Collection.NOT_MAPPED = {}`: the reserved omit sentinel, a plain
object; we give it allocation id 0. -/
def NOT_MAPPED : JSVal := .obj 0

/-- JS loose equality `v == Collection.NOT_MAPPED`, as used by the guard
in `Iterable.prototype.map` (`mapped != Collection.NOT_MAPPED`).
Object-to-object loose equality is reference equality; comparing the
sentinel object against a string coerces the object via `ToPrimitive` to
the string `"[object Object]"`; comparing it against a number or boolean
coerces it to `NaN`, which never compares equal. -/
def looseEqNotMapped : JSVal → Bool
  | .obj i => i = 0
  | .str s => s = "[object Object]"
  | _ => false

/-- `Iterable.prototype.map(callback)`: pushes `callback(item)` for every
item, except when the result compares loosely equal to the sentinel. -/
def mapJS (items : List JSVal) (f : JSVal → JSVal) : List JSVal :=
  items.filterMap fun x =>
    let mapped := f x
    if looseEqNotMapped mapped then none else some mapped

/-- `Iterable.prototype.filter(predicate)`. -/
def filterJS (items : List JSVal) (p : JSVal → Bool) : List JSVal :=
  items.filter p

/-- JS `Array.prototype.slice` start/end normalization: a negative index
counts from the end (clamped below at 0), a non-negative one is clamped
above at the length. -/
def jsSliceIndex (len : Nat) (i : Int) : Nat :=
  if i < 0 then (max ((len : Int) + i) 0).toNat else min i.toNat len

/-- `items.slice(start, end)`: the elements from index
`jsSliceIndex start` (inclusive) to `jsSliceIndex end` (exclusive). -/
def jsSlice2 (l : List JSVal) (start stop : Int) : List JSVal :=
  (l.take (jsSliceIndex l.length stop)).drop (jsSliceIndex l.length start)

/-- `items.slice(start)` (one-argument form): up to the end of the array. -/
def jsSlice1 (l : List JSVal) (start : Int) : List JSVal :=
  jsSlice2 l start (l.length : Int)

/-- `Iterable.prototype.drop(n)`:
`n = Math.min(n, items.length); slice(n)`.  Note there is no lower clamp:
a negative `n` survives `Math.min` and reaches `slice` unchanged. -/
def dropJS (l : List JSVal) (n : Int) : List JSVal :=
  jsSlice1 l (min n (l.length : Int))

/-- `Iterable.prototype.dropRight(n)`:
`n = Math.min(n, items.length); slice(0, items.length - n)`. -/
def dropRightJS (l : List JSVal) (n : Int) : List JSVal :=
  jsSlice2 l 0 ((l.length : Int) - min n (l.length : Int))

/-- `Iterable.prototype.take(n)`:
`n = Math.min(n, items.length); slice(0, n)`. -/
def takeJS (l : List JSVal) (n : Int) : List JSVal :=
  jsSlice2 l 0 (min n (l.length : Int))

/-- `Iterable.prototype.takeRight(n)`:
`n = Math.min(n, items.length); slice(-n)`.  For `n = 0` this is
`slice(0)`, i.e. the whole array. -/
def takeRightJS (l : List JSVal) (n : Int) : List JSVal :=
  jsSlice1 l (-(min n (l.length : Int)))

/-- `Iterable.prototype.reverse()`: `items.slice().reverse()`. -/
def reverseJS (l : List JSVal) : List JSVal :=
  l.reverse

/-- `Iterable.prototype.toArray()` / `clone()`: a shallow copy of the
backing array. -/
def cloneJS (l : List JSVal) : List JSVal :=
  l

/-! ## `Iterable.prototype.sorted(options)` -/

/-- The options object of `sorted`, after the destructuring at the top of
the source (`by`, `localeCompare`, `ignoreCase`, `reverse`, each with its
default).  A string `by` is converted by the source to a pluck function
before use, so the extractor is modelled directly as a function. -/
structure SortOptions where
  byFn : Option (JSVal → JSVal) := none
  localeCompare : Bool := false
  ignoreCase : Bool := false
  reverse : Bool := false

/-- The sort value of an item: `if (by && item) item = by(item)` — the
extractor is applied only when both `by` and the item are truthy. -/
def sortValue (byFn : Option (JSVal → JSVal)) (x : JSVal) : JSVal :=
  match byFn with
  | some f => if x.truthy then f x else x
  | none => x

/-- The missing-value test of `sorted`:
`item === null || item === undefined || item === ''`. -/
def isMissing (v : JSVal) : Bool :=
  v = .null || v = .undefVal || v = .str ""

/-- The scan loop of `sorted`: walks the items with their indices,
computing each sort value; missing sort values are pushed (in order) onto
`missingData`, the rest are uppercased under `ignoreCase` and pushed as
`{index, value}` records onto `mapped`. -/
def sortedScan (byFn : Option (JSVal → JSVal)) (ignoreCase : Bool) :
    List JSVal → Nat → List (Nat × JSVal) × List JSVal
  | [], _ => ([], [])
  | x :: xs, i =>
    let v := sortValue byFn x
    if isMissing v then
      let rest := sortedScan byFn ignoreCase xs (i + 1)
      (rest.1, v :: rest.2)
    else
      let v2 := if ignoreCase then jsToUpperCase v else v
      let rest := sortedScan byFn ignoreCase xs (i + 1)
      ((i, v2) :: rest.1, rest.2)

/-- `a.value.localeCompare(b.value)`: the host's locale-aware string
comparison, supplied externally as `locCmp`.  On non-strings the host
would throw a `TypeError`; the theorems below only reach this call with
string sort values. -/
def jsLocaleCompare (locCmp : String → String → Int) : JSVal → JSVal → Int
  | .str a, .str b => locCmp a b
  | _, _ => 0

/-- The comparator built by `sorted`: compare the sort values (locale or
ordinal depending on `localeCompare`); on strictly-equal sort values,
fall back to comparing the original indices, which never compare equal. -/
def mkSortFunction (locCmp : String → String → Int) (localeCompare : Bool)
    (a b : Nat × JSVal) : Int :=
  if localeCompare then
    if a.2 ≠ b.2 then jsLocaleCompare locCmp a.2 b.2
    else if a.1 < b.1 then -1 else 1
  else
    if a.2 ≠ b.2 then (if jsLt a.2 b.2 then -1 else 1)
    else if a.1 < b.1 then -1 else 1

/-- One insertion step of the comparison sort: `x` is placed before the
first element `y` with `cmp x y < 0`, i.e. after every element it does
not strictly precede. -/
def jsSortInsert (cmp : α → α → Int) (x : α) : List α → List α
  | [] => [x]
  | y :: ys => if cmp x y < 0 then x :: y :: ys else y :: jsSortInsert cmp x ys

/-- `Array.prototype.sort(comparator)`, modelled as a stable insertion
sort (elements are inserted in original order, each after all elements it
does not strictly precede).  ECMAScript guarantees a stable sort, and for
a consistent comparator the result is this unique stable order. -/
def jsSort (cmp : α → α → Int) (l : List α) : List α :=
  l.foldl (fun acc x => jsSortInsert cmp x acc) []

/-- `Iterable.prototype.sorted(options)`: scan into `mapped`/`missingData`,
sort `mapped` with the comparator, read the original items back through
the sorted indices, append the missing sort values, and finally reverse
the whole result when `reverse` is set. -/
def sortedJS (locCmp : String → String → Int) (items : List JSVal)
    (o : SortOptions) : List JSVal :=
  let scanned := sortedScan o.byFn o.ignoreCase items 0
  let ms := jsSort (mkSortFunction locCmp o.localeCompare) scanned.1
  let result := (ms.map fun p => jsIndex items (p.1 : Int)) ++ scanned.2
  if o.reverse then result.reverse else result

/-! ## Claim-side pipeline for C10

`sortedKeyed` restates the `sorted` pipeline with an explicit sort-key
function applied to *every* item, following the claim's wording: claim
C10 asserts that running `sorted` with extractor `f` is the same as
sorting with the key `fun x => if x is truthy then f x else x`. -/

/-- The scan of the claim-side pipeline: like `sortedScan`, but the sort
value of an item is `key x`, unconditionally. -/
def keyedScan (key : JSVal → JSVal) (ignoreCase : Bool) :
    List JSVal → Nat → List (Nat × JSVal) × List JSVal
  | [], _ => ([], [])
  | x :: xs, i =>
    let v := key x
    if isMissing v then
      let rest := keyedScan key ignoreCase xs (i + 1)
      (rest.1, v :: rest.2)
    else
      let v2 := if ignoreCase then jsToUpperCase v else v
      let rest := keyedScan key ignoreCase xs (i + 1)
      ((i, v2) :: rest.1, rest.2)

/-- The claim-side sorted pipeline with an explicit key function. -/
def sortedKeyed (locCmp : String → String → Int) (key : JSVal → JSVal)
    (localeCompare ignoreCase rev : Bool) (items : List JSVal) : List JSVal :=
  let scanned := keyedScan key ignoreCase items 0
  let ms := jsSort (mkSortFunction locCmp localeCompare) scanned.1
  let result := (ms.map fun p => jsIndex items (p.1 : Int)) ++ scanned.2
  if rev then result.reverse else result

/-! ## Heap model for aliasing (C9)

JS arrays are heap objects compared by reference.  To state that the
traversal operations never mutate the receiver's backing array and that
`reverse`/`clone` return a *distinct* backing array, the operations that
produce collections are modelled store-passing style: a `Store` maps
array references (allocation indices) to contents, and every operation —
exactly as in the source, where each body only reads `this.items` and
builds its result with `slice`/fresh array literals — reads the
receiver's array and allocates a fresh one for the result. -/

/-- A heap of JS arrays; a reference is an index into `arrays`. -/
structure Store where
  arrays : List (List JSVal)

/-- Dereference an array. -/
def readArr (st : Store) (r : Nat) : List JSVal :=
  st.arrays.getD r []

/-- Allocate a fresh array: its reference is distinct from every existing
reference. -/
def allocArr (st : Store) (a : List JSVal) : Store × Nat :=
  (⟨st.arrays ++ [a]⟩, st.arrays.length)

/-- `reverse` on the heap: `this._createNew(this.items.slice().reverse())`. -/
def reverseS (st : Store) (r : Nat) : Store × Nat :=
  allocArr st (reverseJS (readArr st r))

/-- `clone` on the heap: `this._createNew(this.items.slice())`. -/
def cloneS (st : Store) (r : Nat) : Store × Nat :=
  allocArr st (cloneJS (readArr st r))

/-- `toArray` on the heap: `cloneArray(this.items)`. -/
def toArrayS (st : Store) (r : Nat) : Store × Nat :=
  allocArr st (cloneJS (readArr st r))

/-- `toList` on the heap: `List.fromArray(this.items)` (the `List`
constructor copies the argument array). -/
def toListS (st : Store) (r : Nat) : Store × Nat :=
  allocArr st (cloneJS (readArr st r))

/-- `map` on the heap: builds a fresh `result` array. -/
def mapS (st : Store) (r : Nat) (f : JSVal → JSVal) : Store × Nat :=
  allocArr st (mapJS (readArr st r) f)

/-- `filter` on the heap: builds a fresh `result` array. -/
def filterS (st : Store) (r : Nat) (p : JSVal → Bool) : Store × Nat :=
  allocArr st (filterJS (readArr st r) p)

/-- `drop` on the heap: `slice` allocates. -/
def dropS (st : Store) (r : Nat) (n : Int) : Store × Nat :=
  allocArr st (dropJS (readArr st r) n)

/-- `take` on the heap: `slice` allocates. -/
def takeS (st : Store) (r : Nat) (n : Int) : Store × Nat :=
  allocArr st (takeJS (readArr st r) n)

/-- `slice` on the heap. -/
def sliceS (st : Store) (r : Nat) (start stop : Int) : Store × Nat :=
  allocArr st (jsSlice2 (readArr st r) start stop)

/-- `sorted` on the heap: builds a fresh `result` array. -/
def sortedS (st : Store) (r : Nat) (locCmp : String → String → Int)
    (o : SortOptions) : Store × Nat :=
  allocArr st (sortedJS locCmp (readArr st r) o)

/-- `Iterable.prototype.dropWhile(predicate)`: works on a `slice()` copy,
shifting it while the predicate holds of `items[index]` — the original
item at the running index, which is exactly the first remaining element —
so the result is the suffix from the first non-matching item on. -/
def dropWhileJS (l : List JSVal) (p : JSVal → Bool) : List JSVal :=
  l.dropWhile p

/-- `Iterable.prototype.takeWhile(predicate)`: pushes items while the
predicate holds, breaking at the first failure. -/
def takeWhileJS (l : List JSVal) (p : JSVal → Bool) : List JSVal :=
  l.takeWhile p

/-- `Iterable.prototype.partition(predicate)`: a single pass pushing each
item onto `yes` or `no`, preserving relative order — the matches and the
non-matches in order. -/
def partitionJS (l : List JSVal) (p : JSVal → Bool) : List JSVal × List JSVal :=
  (l.filter p, l.filter fun x => !(p x))

/-- The loop of `Iterable.prototype.grouped(size)`: `current` collects
items and is flushed into the group list when it reaches `size` items or
the input is exhausted (`i === length - 1`). -/
def groupedGo (n : Int) (current : List JSVal) : List JSVal → List (List JSVal)
  | [] => []
  | x :: xs =>
    let cur := current ++ [x]
    if (cur.length : Int) = n ∨ xs = [] then cur :: groupedGo n [] xs
    else groupedGo n cur xs

/-- `Iterable.prototype.grouped(size)`: consecutive chunks of at most
`size` items (the last may be shorter); each chunk becomes a collection
with its own fresh backing array. -/
def groupedJS (l : List JSVal) (n : Int) : List (List JSVal) :=
  groupedGo n [] l

/-- Modelled from the spec: the keyed associative container (`Map`, spec
section 4.2) that `groupBy` builds its result in is not under `src/`
(only its callers are).  Per the spec, with the default identity
KeyFunction an entry is appended for a new key and looked up by equal
derived key; `gbAdd` adds one item to the entry list accordingly,
appending the item to its group (`List.add` pushes). -/
def gbAdd (groups : List (JSVal × List JSVal)) (k : JSVal) (x : JSVal) :
    List (JSVal × List JSVal) :=
  match groups with
  | [] => [(k, [x])]
  | (k', g) :: rest =>
    if k' = k then (k', g ++ [x]) :: rest else (k', g) :: gbAdd rest k x

/-- The loop of `Iterable.prototype.groupBy(discriminator)`: for each item
in positional order, compute its group key and append the item to that
key's group (creating the group on first encounter). -/
def groupByGo (d : JSVal → JSVal) :
    List JSVal → List (JSVal × List JSVal) → List (JSVal × List JSVal)
  | [], acc => acc
  | x :: xs, acc => groupByGo d xs (gbAdd acc (d x) x)

/-- `Iterable.prototype.groupBy(discriminator)`: an entry list from
discriminator value to the items sharing it, keys in first-encounter
order, items in positional order. -/
def groupByJS (l : List JSVal) (d : JSVal → JSVal) :
    List (JSVal × List JSVal) :=
  groupByGo d l []

/-- The rendering `Array.prototype.join` applies to each element:
`null`/`undefined` render as the empty string. -/
def jsValToString : JSVal → String
  | .null => ""
  | .undefVal => ""
  | .bool b => if b then "true" else "false"
  | .num n => toString n
  | .str s => s
  | .obj _ => "[object Object]"

/-- `items.join(sep)`. -/
def jsJoin (l : List JSVal) (sep : String) : String :=
  String.intercalate sep (l.map jsValToString)

/-! Heap versions of the remaining collection-producing operations. -/

/-- `dropRight` on the heap: `slice` allocates. -/
def dropRightS (st : Store) (r : Nat) (n : Int) : Store × Nat :=
  allocArr st (dropRightJS (readArr st r) n)

/-- `takeRight` on the heap: `slice` allocates. -/
def takeRightS (st : Store) (r : Nat) (n : Int) : Store × Nat :=
  allocArr st (takeRightJS (readArr st r) n)

/-- `dropWhile` on the heap: works on a `slice()` copy (fresh array). -/
def dropWhileS (st : Store) (r : Nat) (p : JSVal → Bool) : Store × Nat :=
  allocArr st (dropWhileJS (readArr st r) p)

/-- `takeWhile` on the heap: builds a fresh `result` array. -/
def takeWhileS (st : Store) (r : Nat) (p : JSVal → Bool) : Store × Nat :=
  allocArr st (takeWhileJS (readArr st r) p)

/-- `partition` on the heap: allocates the fresh `yes` and `no` arrays
and returns their two references. -/
def partitionS (st : Store) (r : Nat) (p : JSVal → Bool) :
    Store × (Nat × Nat) :=
  let res1 := allocArr st (partitionJS (readArr st r) p).1
  let res2 := allocArr res1.1 (partitionJS (readArr st r) p).2
  (res2.1, (res1.2, res2.2))

/-- Allocate one fresh array per chunk, in order, returning all the new
references. -/
def allocMany (st : Store) : List (List JSVal) → Store × List Nat
  | [] => (st, [])
  | c :: cs =>
    let res := allocArr st c
    let rest := allocMany res.1 cs
    (rest.1, res.2 :: rest.2)

/-- `grouped` on the heap: every chunk is passed to `_createNew`, backed
by its own fresh array. -/
def groupedS (st : Store) (r : Nat) (n : Int) : Store × List Nat :=
  allocMany st (groupedJS (readArr st r) n)

/-- `groupBy` on the heap: every group is a `List()` created on first
encounter of its key, backed by its own fresh array (the `List`
constructor copies its arguments). -/
def groupByS (st : Store) (r : Nat) (d : JSVal → JSVal) : Store × List Nat :=
  allocMany st ((groupByJS (readArr st r) d).map Prod.snd)

/-! Heap versions of the scalar operations: their bodies only read
`this.items`, so the store they return is the input store itself. -/

/-- `size()` on the heap: `items.length`, no array written. -/
def sizeS (st : Store) (r : Nat) : Store × Nat :=
  (st, (readArr st r).length)

/-- `itemAt(i)` on the heap: `items[i]`, no array written. -/
def itemAtS (st : Store) (r : Nat) (i : Int) : Store × JSVal :=
  (st, jsIndex (readArr st r) i)

/-- `each(fn)` on the heap: invokes the callback once per item in
positional order and writes no array; the second component is the trace
of arguments the callback receives. -/
def eachS (st : Store) (r : Nat) : Store × List JSVal :=
  (st, readArr st r)

/-- `fold(initial, op)` on the heap: left-to-right accumulation with
`result = operator(items[i], result)`, no array written. -/
def foldS (st : Store) (r : Nat) (init : JSVal) (f : JSVal → JSVal → JSVal) :
    Store × JSVal :=
  (st, (readArr st r).foldl (fun acc x => f x acc) init)

/-- `mkString(start, sep, stop)` on the heap: renders a string, no array
written. -/
def mkStringS (st : Store) (r : Nat) (start sep stop : String) :
    Store × String :=
  (st, start ++ jsJoin (readArr st r) sep ++ stop)

/-! ## Theorems -/

/-- Claim C8: for a `List` `L`, item `x` and integer index `i`, if
`0 ≤ i ≤ L.size()` then `addAt(x, i)` succeeds and inserts `x` at
position `i`: the size grows by one, items before `i` are unchanged,
position `i` holds `x`, and the items after `i` are the old items shifted
right by one.  If `i < 0` or `i > L.size()`, `addAt` reports the range
error; the check precedes the mutation, so the receiver is unchanged
(the error result carries no updated array). -/
theorem addAt_spec (items : List JSVal) (x : JSVal) (i : Int) :
    (0 ≤ i → i ≤ (items.length : Int) →
      ∃ r, addAt items x i = .ok r ∧
        r.length = items.length + 1 ∧
        (∀ k : Nat, k < i.toNat → r.getD k .undefVal = items.getD k .undefVal) ∧
        r.getD i.toNat .undefVal = x ∧
        (∀ k : Nat, i.toNat < k → k < r.length →
          r.getD k .undefVal = items.getD (k - 1) .undefVal)) ∧
    ((i < 0 ∨ (items.length : Int) < i) →
      addAt items x i = .error (rangeErrorMsg i items.length)) := by
  constructor
  · intro h0 h1
    have hfail : assertRangeFails items.length i = false := by
      simp only [assertRangeFails, Bool.or_eq_false_iff, decide_eq_false_iff_not]
      omega
    have hn : i.toNat ≤ items.length := by omega
    refine ⟨items.take i.toNat ++ x :: items.drop i.toNat,
      by simp [addAt, hfail], ?_, ?_, ?_, ?_⟩
    · simp only [List.length_append, List.length_take, List.length_cons,
        List.length_drop]
      omega
    · intro k hk
      have hlt : k < (items.take i.toNat).length := by
        simp only [List.length_take]; omega
      rw [List.getD_eq_getElem?_getD, List.getD_eq_getElem?_getD,
        List.getElem?_append_left hlt, List.getElem?_take, if_pos hk]
    · have hlen : (items.take i.toNat).length = i.toNat := by
        simp only [List.length_take]; omega
      rw [List.getD_eq_getElem?_getD,
        List.getElem?_append_right (by omega : (items.take i.toNat).length ≤ i.toNat),
        hlen]
      simp
    · intro k hk1 hk2
      have hlen : (items.take i.toNat).length = i.toNat := by
        simp only [List.length_take]; omega
      have hk3 : (items.take i.toNat).length ≤ k := by omega
      rw [List.getD_eq_getElem?_getD, List.getD_eq_getElem?_getD,
        List.getElem?_append_right hk3, hlen]
      have h4 : k - i.toNat = (k - i.toNat - 1) + 1 := by omega
      have h5 : i.toNat + (k - i.toNat - 1) = k - 1 := by omega
      rw [h4, List.getElem?_cons_succ, List.getElem?_drop, h5]
  · intro h
    have hfail : assertRangeFails items.length i = true := by
      simp only [assertRangeFails, Bool.or_eq_true, decide_eq_true_eq]
      omega
    simp [addAt, hfail]

/-- Witness for `addAt_spec`: inserting `2` at index `1` of `[1, 3]`. -/
theorem addAt_spec_witness :
    ∃ r, addAt [JSVal.num 1, JSVal.num 3] (JSVal.num 2) 1 = .ok r ∧
      r.length = 3 ∧
      (∀ k : Nat, k < 1 → r.getD k .undefVal = [JSVal.num 1, JSVal.num 3].getD k .undefVal) ∧
      r.getD 1 .undefVal = JSVal.num 2 ∧
      (∀ k : Nat, 1 < k → k < r.length →
        r.getD k .undefVal = [JSVal.num 1, JSVal.num 3].getD (k - 1) .undefVal) :=
  (addAt_spec [JSVal.num 1, JSVal.num 3] (JSVal.num 2) 1).1 (by decide) (by decide)

/-- Claim C1 (code bug): `update(index, item)` reuses `_assertRange`,
whose bound is `index > size()`, so the boundary index `size()` is
accepted; the subsequent assignment `items[size()] = item` appends.
Evaluating the embedded code: on the one-element list `[10]`,
`update(1, 20)` succeeds and returns the grown list `[10, 20]` instead of
reporting the range error the claim requires. -/
theorem update_at_size_appends :
    update [JSVal.num 10] 1 (JSVal.num 20)
      = .ok [JSVal.num 10, JSVal.num 20] := by rfl

/-- Claim C3 (code bug): the `removeIf` loop caches `length` before any
splice and tests `predicate(items[i])` against that stale bound.  On the
one-element list `[1]` with the constant-true predicate, the element is
removed on the first iteration and every later iteration reads
`items[0] === undefined`, finds the predicate true, splices nothing and
leaves `i` unchanged: the loop never terminates (and the predicate is
invoked on `undefined`, a value never in the list).  Formally: no amount
of fuel completes the run. -/
theorem removeIf_diverges :
    ∀ fuel : Nat, removeIf (fun _ => true) [JSVal.num 1] fuel = none := by
  have aux : ∀ (fuel : Nat) (removed : List JSVal),
      removeIfLoop (fun _ => true) 1 fuel 0 [] removed = none := by
    intro fuel
    induction fuel with
    | zero => intro removed; rfl
    | succ fuel ih =>
      intro removed
      simpa [removeIfLoop, jsIndex, spliceRemove] using ih (removed ++ [JSVal.undefVal])
  intro fuel
  cases fuel with
  | zero => rfl
  | succ fuel =>
    simpa [removeIf, removeIfLoop, jsIndex, spliceRemove] using aux fuel [JSVal.num 1]

/-- Claim C4 (code bug): the omit check in `map` is the loose comparison
`mapped != Collection.NOT_MAPPED`.  The sentinel is a plain object, and
under loose equality `{} == "[object Object]"` holds, so a callback that
legitimately returns the string `"[object Object]"` has its result
dropped — the claim (and the spec's "checked by reference/identity")
require every non-sentinel value, including any string, to be kept. -/
theorem map_drops_object_object_string :
    mapJS [JSVal.num 1] (fun _ => JSVal.str "[object Object]") = [] := by decide

/-- Claim C6 (code bug): `takeRight(n)` computes
`slice(-Math.min(n, length))`; for `n = 0` this is `slice(0)`, the whole
collection, not the empty collection the claim (and the function's own
doc comment, "selects the last n items") requires.  Negative `n`
similarly escapes the claimed clamp: `drop(-2)` on six items keeps only
the last two. -/
theorem takeRight_zero_returns_all :
    takeRightJS [JSVal.num 1, JSVal.num 2, JSVal.num 3] 0
        = [JSVal.num 1, JSVal.num 2, JSVal.num 3]
      ∧ dropJS [JSVal.num 1, JSVal.num 2, JSVal.num 3, JSVal.num 4, JSVal.num 5,
          JSVal.num 6] (-2)
        = [JSVal.num 5, JSVal.num 6] := by decide

/-- Claim C2 (counterexample): on `['b', '', 'a']` with `reverse: true`,
the code first builds `['a', 'b', '']` (sorted comparables, missing value
at the tail) and then reverses the *whole* array, producing
`['', 'b', 'a']` — the missing value moves to the head, not
`['b', 'a', '']` as the claim predicts. -/
theorem sorted_reverse_moves_missing_to_head :
    sortedJS (fun _ _ => 0) [JSVal.str "b", JSVal.str "", JSVal.str "a"]
        {reverse := true}
      = [JSVal.str "", JSVal.str "b", JSVal.str "a"]
    ∧ ([JSVal.str "", JSVal.str "b", JSVal.str "a"] : List JSVal)
      ≠ [JSVal.str "b", JSVal.str "a", JSVal.str ""] := by decide

/-- Claim C2 (amended): `sorted({reverse: true})` is the reversal of the
whole `sorted({reverse: false})` result — the missing sort values, routed
to the tail in original relative order before the reversal, therefore end
up at the head; the `reverse` flag reverses the entire sequence, missing
values included. -/
theorem sorted_reverse_is_full_reversal (locCmp : String → String → Int)
    (o : SortOptions) (items : List JSVal) :
    sortedJS locCmp items {o with reverse := true}
      = (sortedJS locCmp items {o with reverse := false}).reverse := by
  simp [sortedJS]

/-- Claim C10: with a `by` extractor, the sort value of an item `x` is
`f x` only when `x` is truthy (`if (by && item) item = by(item)`); every
falsy item — `0`, `''`, `null`, `undefined`, `false` — is used raw.  The
whole of `sorted` with extractor `f` therefore coincides with the
claim-side pipeline keyed by `fun x => if truthy x then f x else x`: in
particular `''`/`null`/`undefined` items are routed to the missing tail
no matter what `f` would return, while a falsy-but-present value such as
`0` is compared raw. -/
theorem sorted_by_skips_falsy (locCmp : String → String → Int)
    (f : JSVal → JSVal) (lc ic rev : Bool) (items : List JSVal) :
    sortedJS locCmp items ⟨some f, lc, ic, rev⟩
      = sortedKeyed locCmp (fun x => if x.truthy then f x else x) lc ic rev items
    ∧ ∀ x, sortValue (some f) x = if x.truthy then f x else x := by
  have scan_eq : ∀ (xs : List JSVal) (i : Nat),
      sortedScan (some f) ic xs i
        = keyedScan (fun x => if x.truthy then f x else x) ic xs i := by
    intro xs
    induction xs with
    | nil => intro i; rfl
    | cons x xs ih => intro i; simp [sortedScan, keyedScan, sortValue, ih]
  constructor
  · simp [sortedJS, sortedKeyed, scan_eq]
  · intro x; rfl

/-! ### C9: frame and aliasing of the traversal operations -/

/-- The result of a traversal operation on the heap: every array that
existed before — in particular the receiver's backing array `r` — is
unchanged, the result's backing array is a reference distinct from the
receiver's, and its contents are the operation's value. -/
def FreshResult (st : Store) (r : Nat) (res : Store × Nat)
    (contents : List JSVal) : Prop :=
  (∀ q, q < st.arrays.length → readArr res.1 q = readArr st q)
    ∧ res.2 ≠ r
    ∧ readArr res.1 res.2 = contents

theorem freshResult_alloc (st : Store) (r : Nat) (a : List JSVal)
    (hr : r < st.arrays.length) : FreshResult st r (allocArr st a) a := by
  refine ⟨?_, by simp [allocArr]; omega, ?_⟩
  · intro q hq
    simp only [readArr, allocArr, List.getD_eq_getElem?_getD,
      List.getElem?_append_left hq]
  · simp only [readArr, allocArr, List.getD_eq_getElem?_getD,
      List.getElem?_append_right (Nat.le_refl _), Nat.sub_self]
    simp

theorem allocArr_pres (st : Store) (a : List JSVal) :
    ∀ q, q < st.arrays.length → readArr (allocArr st a).1 q = readArr st q := by
  intro q hq
  simp only [readArr, allocArr, List.getD_eq_getElem?_getD,
    List.getElem?_append_left hq]

theorem allocArr_read (st : Store) (a : List JSVal) :
    readArr (allocArr st a).1 (allocArr st a).2 = a := by
  simp only [readArr, allocArr, List.getD_eq_getElem?_getD,
    List.getElem?_append_right (Nat.le_refl _), Nat.sub_self]
  simp

theorem allocArr_len (st : Store) (a : List JSVal) :
    (allocArr st a).1.arrays.length = st.arrays.length + 1 := by
  simp [allocArr]

/-- `allocMany` preserves every existing array, returns only references
at or beyond the old store size (hence fresh), one per chunk, and each
new reference holds its chunk. -/
theorem allocMany_spec (cs : List (List JSVal)) : ∀ st : Store,
    (∀ q, q < st.arrays.length → readArr (allocMany st cs).1 q = readArr st q)
    ∧ (∀ rr ∈ (allocMany st cs).2, st.arrays.length ≤ rr)
    ∧ (allocMany st cs).2.length = cs.length
    ∧ (∀ i, i < cs.length →
        readArr (allocMany st cs).1 ((allocMany st cs).2.getD i 0)
          = cs.getD i []) := by
  induction cs with
  | nil =>
    intro st
    exact ⟨fun q _ => rfl, by simp [allocMany], by simp [allocMany],
      fun i hi => absurd hi (by simp)⟩
  | cons c cs ih =>
    intro st
    obtain ⟨pres2, bound2, len2, content2⟩ := ih (allocArr st c).1
    have hlen := allocArr_len st c
    refine ⟨?_, ?_, ?_, ?_⟩
    · intro q hq
      have h1 : readArr (allocMany (allocArr st c).1 cs).1 q
          = readArr (allocArr st c).1 q := pres2 q (by omega)
      simp only [allocMany]
      exact h1.trans (allocArr_pres st c q hq)
    · intro rr hrr
      simp only [allocMany, List.mem_cons] at hrr
      rcases hrr with rfl | hrr
      · simp [allocArr]
      · have := bound2 rr hrr; omega
    · simp only [allocMany, List.length_cons, len2]
    · intro i hi
      cases i with
      | zero =>
        simp only [allocMany, List.getD_cons_zero]
        have h1 : readArr (allocMany (allocArr st c).1 cs).1 (allocArr st c).2
            = readArr (allocArr st c).1 (allocArr st c).2 := by
          apply pres2
          simp [allocArr]
        exact h1.trans (allocArr_read st c)
      | succ j =>
        simp only [allocMany, List.getD_cons_succ]
        exact content2 j (by simpa using hi)

/-- Claim C9: every traversal-protocol operation leaves the receiver's
item sequence (and every other existing array) unchanged, and every
collection-producing operation — in particular `reverse` and `clone`,
but also `map`, `filter`, the `drop`/`take` variants, `dropWhile`/
`takeWhile`, `slice`, `sorted`, `toList`, `toArray`, both halves of
`partition`, every chunk of `grouped` and every group of `groupBy` —
returns backing storage whose reference is fresh, never aliasing the
receiver's backing array.  The scalar operations `size`, `itemAt`,
`each`, `fold` and `mkString` return the store unchanged together with a
pure function of the receiver's items (`each`'s second component is the
trace of arguments passed to the callback, in positional order). -/
theorem traversal_frame_spec (st : Store) (r : Nat)
    (hr : r < st.arrays.length) (f : JSVal → JSVal) (p : JSVal → Bool)
    (n start stop : Int) (locCmp : String → String → Int) (o : SortOptions)
    (d : JSVal → JSVal) (g : Int) (init : JSVal)
    (op2 : JSVal → JSVal → JSVal) (pre sep suf : String) :
    FreshResult st r (reverseS st r) (reverseJS (readArr st r))
      ∧ FreshResult st r (cloneS st r) (readArr st r)
      ∧ FreshResult st r (toArrayS st r) (readArr st r)
      ∧ FreshResult st r (toListS st r) (readArr st r)
      ∧ FreshResult st r (mapS st r f) (mapJS (readArr st r) f)
      ∧ FreshResult st r (filterS st r p) (filterJS (readArr st r) p)
      ∧ FreshResult st r (dropS st r n) (dropJS (readArr st r) n)
      ∧ FreshResult st r (takeS st r n) (takeJS (readArr st r) n)
      ∧ FreshResult st r (dropRightS st r n) (dropRightJS (readArr st r) n)
      ∧ FreshResult st r (takeRightS st r n) (takeRightJS (readArr st r) n)
      ∧ FreshResult st r (dropWhileS st r p) (dropWhileJS (readArr st r) p)
      ∧ FreshResult st r (takeWhileS st r p) (takeWhileJS (readArr st r) p)
      ∧ FreshResult st r (sliceS st r start stop)
          (jsSlice2 (readArr st r) start stop)
      ∧ FreshResult st r (sortedS st r locCmp o)
          (sortedJS locCmp (readArr st r) o)
      ∧ ((∀ q, q < st.arrays.length →
            readArr (partitionS st r p).1 q = readArr st q)
          ∧ (partitionS st r p).2.1 ≠ r
          ∧ (partitionS st r p).2.2 ≠ r
          ∧ (partitionS st r p).2.1 ≠ (partitionS st r p).2.2
          ∧ readArr (partitionS st r p).1 (partitionS st r p).2.1
              = (partitionJS (readArr st r) p).1
          ∧ readArr (partitionS st r p).1 (partitionS st r p).2.2
              = (partitionJS (readArr st r) p).2)
      ∧ ((∀ q, q < st.arrays.length →
            readArr (groupedS st r g).1 q = readArr st q)
          ∧ (∀ rr ∈ (groupedS st r g).2, rr ≠ r)
          ∧ (groupedS st r g).2.length = (groupedJS (readArr st r) g).length
          ∧ (∀ i, i < (groupedJS (readArr st r) g).length →
              readArr (groupedS st r g).1 ((groupedS st r g).2.getD i 0)
                = (groupedJS (readArr st r) g).getD i []))
      ∧ ((∀ q, q < st.arrays.length →
            readArr (groupByS st r d).1 q = readArr st q)
          ∧ (∀ rr ∈ (groupByS st r d).2, rr ≠ r)
          ∧ (groupByS st r d).2.length = (groupByJS (readArr st r) d).length
          ∧ (∀ i, i < (groupByJS (readArr st r) d).length →
              readArr (groupByS st r d).1 ((groupByS st r d).2.getD i 0)
                = ((groupByJS (readArr st r) d).map Prod.snd).getD i []))
      ∧ sizeS st r = (st, (readArr st r).length)
      ∧ itemAtS st r n = (st, jsIndex (readArr st r) n)
      ∧ eachS st r = (st, readArr st r)
      ∧ foldS st r init op2
          = (st, (readArr st r).foldl (fun acc x => op2 x acc) init)
      ∧ mkStringS st r pre sep suf
          = (st, pre ++ jsJoin (readArr st r) sep ++ suf) := by
  refine ⟨freshResult_alloc st r _ hr, freshResult_alloc st r _ hr,
    freshResult_alloc st r _ hr, freshResult_alloc st r _ hr,
    freshResult_alloc st r _ hr, freshResult_alloc st r _ hr,
    freshResult_alloc st r _ hr, freshResult_alloc st r _ hr,
    freshResult_alloc st r _ hr, freshResult_alloc st r _ hr,
    freshResult_alloc st r _ hr, freshResult_alloc st r _ hr,
    freshResult_alloc st r _ hr, freshResult_alloc st r _ hr,
    ?_, ?_, ?_, rfl, rfl, rfl, rfl, rfl⟩
  · have hlen1 := allocArr_len st (partitionJS (readArr st r) p).1
    refine ⟨?_, ?_, ?_, ?_, ?_, ?_⟩
    · intro q hq
      simp only [partitionS]
      exact (allocArr_pres _ _ q (by omega)).trans (allocArr_pres st _ q hq)
    · show st.arrays.length ≠ r
      omega
    · show (allocArr st (partitionJS (readArr st r) p).1).1.arrays.length ≠ r
      rw [allocArr_len]
      omega
    · show st.arrays.length
        ≠ (allocArr st (partitionJS (readArr st r) p).1).1.arrays.length
      rw [allocArr_len]
      omega
    · simp only [partitionS]
      exact (allocArr_pres _ _ _ (by simp [allocArr])).trans
        (allocArr_read st _)
    · simp only [partitionS]
      exact allocArr_read _ _
  · obtain ⟨p1, p2, p3, p4⟩ := allocMany_spec (groupedJS (readArr st r) g) st
    exact ⟨p1, fun rr hrr => by have := p2 rr hrr; omega, p3, p4⟩
  · obtain ⟨p1, p2, p3, p4⟩ :=
      allocMany_spec ((groupByJS (readArr st r) d).map Prod.snd) st
    refine ⟨p1, fun rr hrr => by have := p2 rr hrr; omega, ?_, ?_⟩
    · simpa using p3
    · intro i hi
      exact p4 i (by simpa using hi)

/-- Witness for `traversal_frame_spec`: a store holding the single array
`[1, 2]`. -/
theorem traversal_frame_spec_witness :
    FreshResult ⟨[[JSVal.num 1, JSVal.num 2]]⟩ 0
        (reverseS ⟨[[JSVal.num 1, JSVal.num 2]]⟩ 0)
        (reverseJS (readArr ⟨[[JSVal.num 1, JSVal.num 2]]⟩ 0))
      ∧ FreshResult ⟨[[JSVal.num 1, JSVal.num 2]]⟩ 0
        (cloneS ⟨[[JSVal.num 1, JSVal.num 2]]⟩ 0)
        (readArr ⟨[[JSVal.num 1, JSVal.num 2]]⟩ 0)
      ∧ sizeS ⟨[[JSVal.num 1, JSVal.num 2]]⟩ 0
        = (⟨[[JSVal.num 1, JSVal.num 2]]⟩,
            (readArr ⟨[[JSVal.num 1, JSVal.num 2]]⟩ 0).length) :=
  let st : Store := ⟨[[JSVal.num 1, JSVal.num 2]]⟩
  let h := traversal_frame_spec st 0 (by simp [st]) id (fun _ => true)
    1 0 2 (fun _ _ => 0) {} id 4 JSVal.null (fun x _ => x) "[" ", " "]"
  ⟨h.1, h.2.1, (h.2.2.2.2.2.2.2.2.2.2.2.2.2.2.2.2.2).1⟩

/-! ### C7: binary-search insertion -/

theorem jsIndex_coe (l : List JSVal) (k : Nat) (h : k < l.length) :
    jsIndex l (k : Int) = l.get ⟨k, h⟩ := by
  have hc : (0 : Int) ≤ (k : Int) ∧ (k : Int) < (l.length : Int) := by
    constructor <;> omega
  simp only [jsIndex, dif_pos hc]
  congr 1

/-- The binary-search loop returns an index between its bounds, below
which the comparator is positive and from which on it is non-positive. -/
theorem insertLoop_correct (C : JSVal → JSVal → Int) (x : JSVal)
    (l : List JSVal)
    (hmono : ∀ j k : Nat, j ≤ k → k < l.length →
      C x (jsIndex l (j : Int)) ≤ 0 → C x (jsIndex l (k : Int)) ≤ 0) :
    ∀ (d low high : Nat), high - low ≤ d → low ≤ high → high ≤ l.length →
      (∀ k, k < low → 0 < C x (jsIndex l (k : Int))) →
      (∀ k, high ≤ k → k < l.length → C x (jsIndex l (k : Int)) ≤ 0) →
      low ≤ insertLoop C x l low high
        ∧ insertLoop C x l low high ≤ high
        ∧ (∀ k, k < insertLoop C x l low high → 0 < C x (jsIndex l (k : Int)))
        ∧ (∀ k, insertLoop C x l low high ≤ k → k < l.length →
            C x (jsIndex l (k : Int)) ≤ 0) := by
  intro d
  induction d with
  | zero =>
    intro low high hd hlh _ hlow hhigh
    have heq : low = high := by omega
    rw [insertLoop, if_neg (by omega)]
    exact ⟨Nat.le_refl _, by omega, hlow, fun k hk1 hk2 => hhigh k (by omega) hk2⟩
  | succ d ih =>
    intro low high hd hlh hhl hlow hhigh
    by_cases hlt : low < high
    · rw [insertLoop, if_pos hlt]
      by_cases hc : 0 < C x (jsIndex l (((low + high) / 2 : Nat) : Int))
      · rw [if_pos hc]
        have hpre : ∀ k, k < (low + high) / 2 + 1 → 0 < C x (jsIndex l (k : Int)) := by
          intro k hk
          rcases Nat.lt_or_ge k low with h | h
          · exact hlow k h
          · by_contra hcon
            push_neg at hcon
            exact absurd (hmono k ((low + high) / 2) (by omega) (by omega) hcon)
              (by omega)
        obtain ⟨h1, h2, h3, h4⟩ :=
          ih ((low + high) / 2 + 1) high (by omega) (by omega) hhl hpre hhigh
        exact ⟨by omega, h2, h3, h4⟩
      · rw [if_neg hc]
        have hpost : ∀ k, (low + high) / 2 ≤ k → k < l.length →
            C x (jsIndex l (k : Int)) ≤ 0 := by
          intro k hk1 hk2
          exact hmono ((low + high) / 2) k hk1 (by omega) (by omega)
        obtain ⟨h1, h2, h3, h4⟩ :=
          ih low ((low + high) / 2) (by omega) (by omega) (by omega) hlow hpost
        exact ⟨h1, by omega, h3, h4⟩
    · rw [insertLoop, if_neg hlt]
      have heq : low = high := by omega
      exact ⟨Nat.le_refl _, by omega, hlow, fun k hk1 hk2 => hhigh k (by omega) hk2⟩

/-- Claim C7: on a list that is non-decreasing under a consistent
comparator `C`, `insert(x, C)` finds by binary search the leftmost
position whose existing element `e` satisfies `C(x, e) ≤ 0` (every
element before it has `C(x, e) > 0`, every element from it on has
`C(x, e) ≤ 0`), inserts `x` exactly there, and the resulting list is
still non-decreasing under `C`; when no comparator is given, the default
ordinal comparator is used.  Consistency of the comparator is the usual
contract of a JS sort comparator: transitivity of `C a b ≤ 0` and
`0 < C a b → C b a ≤ 0`. -/
theorem insert_spec (C : JSVal → JSVal → Int) (x : JSVal)
    (items : List JSVal)
    (htrans : ∀ a b c, C a b ≤ 0 → C b c ≤ 0 → C a c ≤ 0)
    (hskew : ∀ a b, 0 < C a b → C b a ≤ 0)
    (hsorted : List.Chain' (fun a b => C a b ≤ 0) items) :
    ∃ low, low = insertLoop C x items 0 items.length
      ∧ low ≤ items.length
      ∧ insert C x items = .ok (items.take low ++ x :: items.drop low)
      ∧ (∀ k, k < low → 0 < C x (jsIndex items (k : Int)))
      ∧ (∀ k, low ≤ k → k < items.length → C x (jsIndex items (k : Int)) ≤ 0)
      ∧ List.Chain' (fun a b => C a b ≤ 0)
          (items.take low ++ x :: items.drop low)
      ∧ (∀ y l, insertOpt none y l = insert defaultSortFunction y l) := by
  letI R : JSVal → JSVal → Prop := fun a b => C a b ≤ 0
  have hpair : items.Pairwise R := by
    letI : IsTrans JSVal R := ⟨fun a b c hab hbc => htrans a b c hab hbc⟩
    exact List.chain'_iff_pairwise.mp hsorted
  have hpget := List.pairwise_iff_getElem.mp hpair
  have hmono : ∀ j k : Nat, j ≤ k → k < items.length →
      C x (jsIndex items (j : Int)) ≤ 0 → C x (jsIndex items (k : Int)) ≤ 0 := by
    intro j k hjk hk hj
    rcases Nat.eq_or_lt_of_le hjk with rfl | hlt
    · exact hj
    · have hjl : j < items.length := by omega
      rw [jsIndex_coe items j hjl] at hj
      rw [jsIndex_coe items k hk]
      exact htrans x _ _ hj (hpget j k hjl hk hlt)
  obtain ⟨hge, hle, hneg, hpos⟩ :=
    insertLoop_correct C x items hmono items.length 0 items.length
      (by omega) (by omega) (by omega)
      (by intro k hk; omega)
      (by intro k hk1 hk2; omega)
  set low := insertLoop C x items 0 items.length with hlow0
  have hfail : assertRangeFails items.length (low : Int) = false := by
    simp only [assertRangeFails, Bool.or_eq_false_iff, decide_eq_false_iff_not]
    omega
  refine ⟨low, rfl, hle, ?_, hneg, hpos, ?_, fun _ _ => rfl⟩
  · simp only [insert, addAt, hfail, Bool.false_eq_true, if_false, Int.toNat_natCast]
  · apply List.Pairwise.chain'
    rw [List.pairwise_append]
    refine ⟨hpair.sublist (List.take_sublist low items), ?_, ?_⟩
    · rw [List.pairwise_cons]
      constructor
      · intro b hb
        obtain ⟨j, hj, rfl⟩ := List.mem_iff_getElem.mp hb
        rw [List.getElem_drop]
        have hjl : low + j < items.length := by
          have := hj
          simp only [List.length_drop] at this
          omega
        have := hpos (low + j) (by omega) hjl
        rwa [jsIndex_coe items (low + j) hjl] at this
      · exact hpair.sublist (List.drop_sublist low items)
    · intro a ha b hb
      obtain ⟨k, hk, rfl⟩ := List.mem_iff_getElem.mp ha
      have hkl : k < low := by
        have := hk
        simp only [List.length_take] at this
        omega
      have hklen : k < items.length := by omega
      rw [List.getElem_take]
      rcases List.mem_cons.mp hb with hbx | hb2
      · subst hbx
        have := hneg k hkl
        rw [jsIndex_coe items k hklen] at this
        exact hskew _ _ this
      · obtain ⟨j, hj, rfl⟩ := List.mem_iff_getElem.mp hb2
        rw [List.getElem_drop]
        have hjl : low + j < items.length := by
          have := hj
          simp only [List.length_drop] at this
          omega
        exact hpget k (low + j) hklen hjl (by omega)

/-- Witness for `insert_spec`: the constant-zero comparator on the
one-element list `[1]` — every pair compares equal, so the list is
trivially sorted and the insertion point is index `0`. -/
theorem insert_spec_witness :
    ∃ low, low = insertLoop (fun _ _ => 0) (JSVal.num 5) [JSVal.num 1] 0 1
      ∧ low ≤ 1
      ∧ insert (fun _ _ => 0) (JSVal.num 5) [JSVal.num 1]
          = .ok (([JSVal.num 1].take low) ++ JSVal.num 5 :: [JSVal.num 1].drop low)
      ∧ (∀ k, k < low →
          (0 : Int) < (fun (_ _ : JSVal) => (0 : Int)) (JSVal.num 5)
            (jsIndex [JSVal.num 1] (k : Int)))
      ∧ (∀ k, low ≤ k → k < 1 →
          (fun (_ _ : JSVal) => (0 : Int)) (JSVal.num 5)
            (jsIndex [JSVal.num 1] (k : Int)) ≤ 0)
      ∧ List.Chain' (fun _ _ => (0 : Int) ≤ 0)
          (([JSVal.num 1].take low) ++ JSVal.num 5 :: [JSVal.num 1].drop low)
      ∧ (∀ y l, insertOpt none y l = insert defaultSortFunction y l) :=
  insert_spec (fun _ _ => 0) (JSVal.num 5) [JSVal.num 1]
    (fun _ _ _ _ _ => le_refl 0) (fun _ _ h => absurd h (lt_irrefl 0)) (by simp)

/-! ### C5: the `sorted` algorithm

The characterization needs: the code-point order on strings is a strict
total order; the insertion model of `Array.prototype.sort` returns a
permutation of its input that is pairwise-ordered by any comparator that
is consistent on the input's elements; and the scan produces records with
strictly increasing indices. -/

theorem charToNat_inj {a b : Char} (h : a.toNat = b.toNat) : a = b := by
  have hv : a.val = b.val := UInt32.eq_of_val_eq (Fin.ext h)
  exact Char.eq_of_val_eq hv

theorem strLtB_irrefl : ∀ l, strLtB l l = false
  | [] => rfl
  | a :: as => by simp [strLtB, strLtB_irrefl as]

theorem strLtB_asymm : ∀ l₁ l₂, strLtB l₁ l₂ = true → strLtB l₂ l₁ = false
  | [], [] => by simp [strLtB]
  | [], _ :: _ => by simp [strLtB]
  | _ :: _, [] => by simp [strLtB]
  | a :: as, b :: bs => by
    simp only [strLtB]
    by_cases h1 : a.toNat < b.toNat
    · intro _
      rw [if_neg (by omega), if_pos h1]
    · rw [if_neg h1]
      by_cases h2 : b.toNat < a.toNat
      · simp [h2]
      · rw [if_neg h2, if_neg h2, if_neg h1]
        exact strLtB_asymm as bs

theorem strLtB_connex : ∀ l₁ l₂, l₁ ≠ l₂ →
    strLtB l₁ l₂ = true ∨ strLtB l₂ l₁ = true
  | [], [] => fun h => absurd rfl h
  | [], _ :: _ => fun _ => Or.inl rfl
  | _ :: _, [] => fun _ => Or.inr rfl
  | a :: as, b :: bs => by
    intro hne
    by_cases h1 : a.toNat < b.toNat
    · exact Or.inl (by simp [strLtB, h1])
    · by_cases h2 : b.toNat < a.toNat
      · exact Or.inr (by simp [strLtB, h2])
      · have hab : a = b := charToNat_inj (by omega)
        subst hab
        have htl : as ≠ bs := fun h => hne (by rw [h])
        rcases strLtB_connex as bs htl with h | h
        · exact Or.inl (by simp [strLtB, h1, h2, h])
        · exact Or.inr (by simp [strLtB, h1, h2, h])

theorem strLtB_trans : ∀ l₁ l₂ l₃, strLtB l₁ l₂ = true → strLtB l₂ l₃ = true →
    strLtB l₁ l₃ = true
  | [], [], _ => by simp [strLtB]
  | [], _ :: _, [] => by simp [strLtB]
  | [], _ :: _, _ :: _ => by simp [strLtB]
  | _ :: _, [], _ => by simp [strLtB]
  | _ :: _, _ :: _, [] => by simp [strLtB]
  | a :: as, b :: bs, c :: cs => by
    intro h12 h23
    simp only [strLtB] at h12 h23 ⊢
    rcases Nat.lt_trichotomy a.toNat b.toNat with hab | hab | hab
    · rcases Nat.lt_trichotomy b.toNat c.toNat with hbc | hbc | hbc
      · rw [if_pos (by omega)]
      · rw [if_pos (by omega)]
      · rw [if_neg (by omega), if_pos hbc] at h23
        exact absurd h23 (by simp)
    · rw [if_neg (by omega), if_neg (by omega)] at h12
      rcases Nat.lt_trichotomy b.toNat c.toNat with hbc | hbc | hbc
      · rw [if_pos (by omega)]
      · rw [if_neg (by omega), if_neg (by omega)] at h23
        rw [if_neg (by omega), if_neg (by omega)]
        exact strLtB_trans as bs cs h12 h23
      · rw [if_neg (by omega), if_pos (by omega)] at h23
        exact absurd h23 (by simp)
    · rw [if_neg (by omega), if_pos (by omega)] at h12
      exact absurd h12 (by simp)

theorem mem_jsSortInsert {cmp : α → α → Int} {x a : α} :
    ∀ {l : List α}, a ∈ jsSortInsert cmp x l ↔ a = x ∨ a ∈ l := by
  intro l
  induction l with
  | nil => simp [jsSortInsert]
  | cons y ys ih =>
    simp only [jsSortInsert]
    split
    · simp [or_comm, or_assoc, or_left_comm]
    · simp only [List.mem_cons, ih]
      tauto

theorem jsSortInsert_perm (cmp : α → α → Int) (x : α) :
    ∀ l : List α, (jsSortInsert cmp x l).Perm (x :: l) := by
  intro l
  induction l with
  | nil => exact List.Perm.refl _
  | cons y ys ih =>
    simp only [jsSortInsert]
    split
    · exact List.Perm.refl _
    · exact (ih.cons y).trans (List.Perm.swap x y ys)

theorem jsSort_perm (cmp : α → α → Int) (l : List α) : (jsSort cmp l).Perm l := by
  have aux : ∀ (pending acc : List α),
      (pending.foldl (fun acc x => jsSortInsert cmp x acc) acc).Perm (acc ++ pending) := by
    intro pending
    induction pending with
    | nil => intro acc; simp
    | cons x xs ih =>
      intro acc
      have h1 := ih (jsSortInsert cmp x acc)
      have h2 : (jsSortInsert cmp x acc ++ xs).Perm (acc ++ x :: xs) :=
        ((jsSortInsert_perm cmp x acc).append_right xs).trans List.perm_middle.symm
      rw [List.foldl_cons]
      exact h1.trans h2
  simpa using aux l []

theorem jsSortInsert_pairwise {cmp : α → α → Int} {x : α} :
    ∀ {acc : List α},
      acc.Pairwise (fun a b => cmp a b ≤ 0) →
      (∀ y ∈ acc, ¬(cmp x y < 0) → cmp y x ≤ 0) →
      (∀ y z, y ∈ acc → z ∈ acc → cmp x y < 0 → cmp y z ≤ 0 → cmp x z ≤ 0) →
      (jsSortInsert cmp x acc).Pairwise (fun a b => cmp a b ≤ 0) := by
  intro acc
  induction acc with
  | nil => intro _ _ _; simp [jsSortInsert]
  | cons y ys ih =>
    intro hacc hskew htr
    rw [List.pairwise_cons] at hacc
    obtain ⟨hy, hys⟩ := hacc
    simp only [jsSortInsert]
    split
    · rename_i hxy
      rw [List.pairwise_cons]
      refine ⟨?_, List.pairwise_cons.mpr ⟨hy, hys⟩⟩
      intro b hb
      rcases List.mem_cons.mp hb with rfl | hb2
      · exact le_of_lt hxy
      · exact htr y b (List.mem_cons_self _ _) (List.mem_cons_of_mem y hb2) hxy (hy b hb2)
    · rename_i hxy
      rw [List.pairwise_cons]
      constructor
      · intro b hb
        rcases mem_jsSortInsert.mp hb with rfl | hb2
        · exact hskew y (List.mem_cons_self _ _) hxy
        · exact hy b hb2
      · exact ih hys
          (fun z hz hc => hskew z (List.mem_cons_of_mem y hz) hc)
          (fun z w hz hw => htr z w (List.mem_cons_of_mem y hz)
            (List.mem_cons_of_mem y hw))

theorem jsSort_pairwise {cmp : α → α → Int} {l : List α}
    (hskew : ∀ a b, a ∈ l → b ∈ l → a ≠ b → ¬(cmp a b < 0) → cmp b a ≤ 0)
    (htr : ∀ a b c, a ∈ l → b ∈ l → c ∈ l →
      cmp a b < 0 → cmp b c ≤ 0 → cmp a c ≤ 0)
    (hnd : l.Nodup) :
    (jsSort cmp l).Pairwise (fun a b => cmp a b ≤ 0) := by
  have aux : ∀ (pending acc : List α),
      (∀ a ∈ pending, a ∈ l) → (∀ a ∈ acc, a ∈ l) →
      pending.Nodup → (∀ a ∈ pending, a ∉ acc) →
      acc.Pairwise (fun a b => cmp a b ≤ 0) →
      (pending.foldl (fun acc x => jsSortInsert cmp x acc) acc).Pairwise
        (fun a b => cmp a b ≤ 0) := by
    intro pending
    induction pending with
    | nil => intro acc _ _ _ _ hp; exact hp
    | cons x xs ih =>
      intro acc hpl hal hnd2 hdisj hp
      rw [List.nodup_cons] at hnd2
      apply ih (jsSortInsert cmp x acc) (fun a ha => hpl a (List.mem_cons_of_mem x ha))
      · intro a ha
        rcases mem_jsSortInsert.mp ha with rfl | ha2
        · exact hpl a (List.mem_cons_self _ _)
        · exact hal a ha2
      · exact hnd2.2
      · intro a ha hmem
        rcases mem_jsSortInsert.mp hmem with rfl | hmem2
        · exact hnd2.1 ha
        · exact hdisj a (List.mem_cons_of_mem x ha) hmem2
      · apply jsSortInsert_pairwise hp
        · intro y hy hc
          exact hskew x y (hpl x (List.mem_cons_self _ _)) (hal y hy)
            (fun hxy => hdisj x (List.mem_cons_self _ _) (hxy ▸ hy)) hc
        · intro y z hy hz hc1 hc2
          exact htr x y z (hpl x (List.mem_cons_self _ _)) (hal y hy) (hal z hz) hc1 hc2
  exact aux l [] (fun a ha => ha) (by simp) hnd (by simp) (by simp)

/-- The comparison `sorted`'s comparator performs on two *distinct* sort
values: locale-aware when `localeCompare` is set, else ordinal
(`(a.value < b.value) ? -1 : 1`). -/
def valCmp (locCmp : String → String → Int) (lc : Bool) (v w : JSVal) : Int :=
  if lc then jsLocaleCompare locCmp v w else if jsLt v w then -1 else 1

theorem mkSortFunction_eq (locCmp : String → String → Int) (lc : Bool)
    (a b : Nat × JSVal) :
    mkSortFunction locCmp lc a b =
      if a.2 ≠ b.2 then valCmp locCmp lc a.2 b.2
      else if a.1 < b.1 then -1 else 1 := by
  cases lc <;> by_cases h : a.2 = b.2 <;> simp [mkSortFunction, valCmp, h]

/-- Consistency of the external locale comparison: antisymmetric in sign
and transitive — the contract a JS sort comparator must satisfy for
`Array.prototype.sort` to have a specified result. -/
def LawfulLocaleCompare (locCmp : String → String → Int) : Prop :=
  (∀ s t, 0 < locCmp s t → locCmp t s < 0)
  ∧ (∀ s t, locCmp s t < 0 → 0 < locCmp t s)
  ∧ (∀ s t, locCmp s t = 0 → locCmp t s = 0)
  ∧ (∀ s t u, locCmp s t ≤ 0 → locCmp t u ≤ 0 → locCmp s u ≤ 0)

/-- The order facts `valCmp` satisfies on a class `P` of sort values. -/
structure ValFacts (locCmp : String → String → Int) (lc : Bool)
    (P : JSVal → Bool) : Prop where
  skew : ∀ v w, P v = true → P w = true → v ≠ w →
    ¬(valCmp locCmp lc v w < 0) → valCmp locCmp lc w v ≤ 0
  tr : ∀ v w u, P v = true → P w = true → P u = true → v ≠ w → w ≠ u →
    valCmp locCmp lc v w < 0 → valCmp locCmp lc w u ≤ 0 →
    v ≠ u ∧ valCmp locCmp lc v u ≤ 0

theorem valCmp_str (locCmp : String → String → Int) (s t : String) :
    valCmp locCmp false (.str s) (.str t)
      = if strLtB s.data t.data then -1 else 1 := by
  simp [valCmp, jsLt]

theorem valCmp_num (locCmp : String → String → Int) (x y : Int) :
    valCmp locCmp false (.num x) (.num y) = if x < y then -1 else 1 := by
  simp [valCmp, jsLt, jsToNumber]

theorem valFacts_ordinal_str (locCmp : String → String → Int) :
    ValFacts locCmp false JSVal.isStr := by
  constructor
  · intro v w hv hw hne hcmp
    cases v with
    | str s =>
      cases w with
      | str t =>
        rw [valCmp_str] at hcmp
        rw [valCmp_str]
        have hst : s.data ≠ t.data := fun h => hne (by rw [String.ext h])
        have hfalse : strLtB s.data t.data = false := by
          by_contra h
          rw [if_pos (by simpa using h)] at hcmp
          exact hcmp (by norm_num)
        rcases strLtB_connex s.data t.data hst with h | h
        · rw [h] at hfalse; exact absurd hfalse (by simp)
        · rw [if_pos h]; norm_num
      | null => simp [JSVal.isStr] at hw
      | undefVal => simp [JSVal.isStr] at hw
      | bool b => simp [JSVal.isStr] at hw
      | num n => simp [JSVal.isStr] at hw
      | obj k => simp [JSVal.isStr] at hw
    | null => simp [JSVal.isStr] at hv
    | undefVal => simp [JSVal.isStr] at hv
    | bool b => simp [JSVal.isStr] at hv
    | num n => simp [JSVal.isStr] at hv
    | obj k => simp [JSVal.isStr] at hv
  · intro v w u hv hw hu hvw hwu h1 h2
    cases v with
    | str s =>
      cases w with
      | str t =>
        cases u with
        | str r =>
          rw [valCmp_str] at h1 h2
          rw [valCmp_str]
          have hst : strLtB s.data t.data = true := by
            by_contra h
            rw [if_neg (by simpa using h)] at h1
            exact absurd h1 (by norm_num)
          have htr : strLtB t.data r.data = true := by
            by_contra h
            rw [if_neg (by simpa using h)] at h2
            exact absurd h2 (by norm_num)
          have hsr : strLtB s.data r.data = true := strLtB_trans _ _ _ hst htr
          constructor
          · intro heq
            have : s.data = r.data := by
              rw [show s = r from by injection heq]
            rw [this] at hst
            have := strLtB_asymm _ _ htr
            rw [this] at hst
            exact absurd hst (by simp)
          · rw [if_pos hsr]; norm_num
        | null => simp [JSVal.isStr] at hu
        | undefVal => simp [JSVal.isStr] at hu
        | bool b => simp [JSVal.isStr] at hu
        | num n => simp [JSVal.isStr] at hu
        | obj k => simp [JSVal.isStr] at hu
      | null => simp [JSVal.isStr] at hw
      | undefVal => simp [JSVal.isStr] at hw
      | bool b => simp [JSVal.isStr] at hw
      | num n => simp [JSVal.isStr] at hw
      | obj k => simp [JSVal.isStr] at hw
    | null => simp [JSVal.isStr] at hv
    | undefVal => simp [JSVal.isStr] at hv
    | bool b => simp [JSVal.isStr] at hv
    | num n => simp [JSVal.isStr] at hv
    | obj k => simp [JSVal.isStr] at hv

theorem valFacts_ordinal_num (locCmp : String → String → Int) :
    ValFacts locCmp false JSVal.isNum := by
  constructor
  · intro v w hv hw hne hcmp
    cases v with
    | num x =>
      cases w with
      | num y =>
        rw [valCmp_num] at hcmp
        rw [valCmp_num]
        have hxy : x ≠ y := fun h => hne (by rw [h])
        have h1 : ¬(x < y) := by
          intro h
          rw [if_pos h] at hcmp
          exact hcmp (by norm_num)
        rw [if_pos (by omega)]
        norm_num
      | null => simp [JSVal.isNum] at hw
      | undefVal => simp [JSVal.isNum] at hw
      | bool b => simp [JSVal.isNum] at hw
      | str s => simp [JSVal.isNum] at hw
      | obj k => simp [JSVal.isNum] at hw
    | null => simp [JSVal.isNum] at hv
    | undefVal => simp [JSVal.isNum] at hv
    | bool b => simp [JSVal.isNum] at hv
    | str s => simp [JSVal.isNum] at hv
    | obj k => simp [JSVal.isNum] at hv
  · intro v w u hv hw hu hvw hwu h1 h2
    cases v with
    | num x =>
      cases w with
      | num y =>
        cases u with
        | num z =>
          rw [valCmp_num] at h1 h2
          rw [valCmp_num]
          have hxy : x < y := by
            by_contra h
            rw [if_neg h] at h1
            exact absurd h1 (by norm_num)
          have hyz : y < z := by
            by_contra h
            rw [if_neg h] at h2
            exact absurd h2 (by norm_num)
          refine ⟨fun h => ?_, by rw [if_pos (by omega)]; norm_num⟩
          have hx : x = z := by injection h
          omega
        | null => simp [JSVal.isNum] at hu
        | undefVal => simp [JSVal.isNum] at hu
        | bool b => simp [JSVal.isNum] at hu
        | str s => simp [JSVal.isNum] at hu
        | obj k => simp [JSVal.isNum] at hu
      | null => simp [JSVal.isNum] at hw
      | undefVal => simp [JSVal.isNum] at hw
      | bool b => simp [JSVal.isNum] at hw
      | str s => simp [JSVal.isNum] at hw
      | obj k => simp [JSVal.isNum] at hw
    | null => simp [JSVal.isNum] at hv
    | undefVal => simp [JSVal.isNum] at hv
    | bool b => simp [JSVal.isNum] at hv
    | str s => simp [JSVal.isNum] at hv
    | obj k => simp [JSVal.isNum] at hv

theorem valFacts_locale (locCmp : String → String → Int)
    (hlaw : LawfulLocaleCompare locCmp) :
    ValFacts locCmp true JSVal.isStr := by
  obtain ⟨hA, hB, hZ, hT⟩ := hlaw
  constructor
  · intro v w hv hw hne hcmp
    cases v with
    | str s =>
      cases w with
      | str t =>
        simp only [valCmp, if_true, jsLocaleCompare] at hcmp ⊢
        rcases lt_trichotomy (locCmp s t) 0 with h | h | h
        · exact absurd h hcmp
        · exact le_of_eq (hZ s t h)
        · exact le_of_lt (hA s t h)
      | null => simp [JSVal.isStr] at hw
      | undefVal => simp [JSVal.isStr] at hw
      | bool b => simp [JSVal.isStr] at hw
      | num n => simp [JSVal.isStr] at hw
      | obj k => simp [JSVal.isStr] at hw
    | null => simp [JSVal.isStr] at hv
    | undefVal => simp [JSVal.isStr] at hv
    | bool b => simp [JSVal.isStr] at hv
    | num n => simp [JSVal.isStr] at hv
    | obj k => simp [JSVal.isStr] at hv
  · intro v w u hv hw hu hvw hwu h1 h2
    cases v with
    | str s =>
      cases w with
      | str t =>
        cases u with
        | str r =>
          simp only [valCmp, if_true, jsLocaleCompare] at h1 h2 ⊢
          constructor
          · intro heq
            have hsr : s = r := by injection heq
            rw [← hsr] at h2
            exact absurd (hB s t h1) (by omega)
          · exact hT s t r (le_of_lt h1) h2
        | null => simp [JSVal.isStr] at hu
        | undefVal => simp [JSVal.isStr] at hu
        | bool b => simp [JSVal.isStr] at hu
        | num n => simp [JSVal.isStr] at hu
        | obj k => simp [JSVal.isStr] at hu
      | null => simp [JSVal.isStr] at hw
      | undefVal => simp [JSVal.isStr] at hw
      | bool b => simp [JSVal.isStr] at hw
      | num n => simp [JSVal.isStr] at hw
      | obj k => simp [JSVal.isStr] at hw
    | null => simp [JSVal.isStr] at hv
    | undefVal => simp [JSVal.isStr] at hv
    | bool b => simp [JSVal.isStr] at hv
    | num n => simp [JSVal.isStr] at hv
    | obj k => simp [JSVal.isStr] at hv

/-- From order facts on the sort values, the comparator built by `sorted`
is consistent on any list of records with those values: the two
hypotheses `jsSort_pairwise` needs. -/
theorem mkSort_pair_hyps {locCmp : String → String → Int} {lc : Bool}
    {P : JSVal → Bool} (F : ValFacts locCmp lc P)
    {S : List (Nat × JSVal)} (hP : ∀ p ∈ S, P p.2 = true) :
    (∀ a b, a ∈ S → b ∈ S → a ≠ b → ¬(mkSortFunction locCmp lc a b < 0) →
      mkSortFunction locCmp lc b a ≤ 0)
    ∧ (∀ a b c, a ∈ S → b ∈ S → c ∈ S → mkSortFunction locCmp lc a b < 0 →
      mkSortFunction locCmp lc b c ≤ 0 → mkSortFunction locCmp lc a c ≤ 0) := by
  constructor
  · intro a b ha hb hne hcmp
    rw [mkSortFunction_eq] at hcmp ⊢
    by_cases hv2 : a.2 = b.2
    · rw [if_neg (fun h => h hv2)] at hcmp
      rw [if_neg (fun h => h hv2.symm)]
      have hidx : ¬(a.1 < b.1) := by
        intro h
        rw [if_pos h] at hcmp
        exact hcmp (by norm_num)
      have hne1 : a.1 ≠ b.1 := by
        intro h
        exact hne (Prod.ext h hv2)
      rw [if_pos (by omega)]
      norm_num
    · rw [if_pos hv2] at hcmp
      rw [if_pos (fun h => hv2 h.symm)]
      exact F.skew a.2 b.2 (hP a ha) (hP b hb) hv2 hcmp
  · intro a b c ha hb hc h1 h2
    rw [mkSortFunction_eq] at h1 h2 ⊢
    by_cases hab : a.2 = b.2 <;> by_cases hbc : b.2 = c.2
    · rw [if_neg (fun h => h hab)] at h1
      rw [if_neg (fun h => h hbc)] at h2
      have hac : a.2 = c.2 := hab.trans hbc
      rw [if_neg (fun h => h hac)]
      have hi1 : a.1 < b.1 := by
        by_contra h
        rw [if_neg h] at h1
        exact absurd h1 (by norm_num)
      have hi2 : b.1 < c.1 := by
        by_contra h
        rw [if_neg h] at h2
        exact absurd h2 (by norm_num)
      rw [if_pos (by omega)]
      norm_num
    · rw [if_neg (fun h => h hab)] at h1
      rw [if_pos hbc] at h2
      have hac : a.2 ≠ c.2 := fun h => hbc (hab ▸ h)
      rw [if_pos hac, hab]
      exact h2
    · rw [if_pos hab] at h1
      rw [if_neg (fun h => h hbc)] at h2
      have hac : a.2 ≠ c.2 := fun h => hab (h.trans hbc.symm)
      rw [if_pos hac, ← hbc]
      exact le_of_lt h1
    · rw [if_pos hab] at h1
      rw [if_pos hbc] at h2
      obtain ⟨hac, hle⟩ := F.tr a.2 b.2 c.2 (hP a ha) (hP b hb) (hP c hc) hab hbc h1 h2
      rw [if_pos hac]
      exact hle

/-- The scan produces records with strictly increasing original indices
(each at least the starting index). -/
theorem sortedScan_indices (byFn : Option (JSVal → JSVal)) (ic : Bool) :
    ∀ (xs : List JSVal) (i : Nat),
      (∀ p ∈ (sortedScan byFn ic xs i).1, i ≤ p.1)
      ∧ (sortedScan byFn ic xs i).1.Pairwise (fun a b => a.1 < b.1) := by
  intro xs
  induction xs with
  | nil => intro i; simp [sortedScan]
  | cons x xs ih =>
    intro i
    by_cases hm : isMissing (sortValue byFn x) = true
    · have heq : (sortedScan byFn ic (x :: xs) i).1
          = (sortedScan byFn ic xs (i + 1)).1 := by
        simp [sortedScan, hm]
      rw [heq]
      exact ⟨fun p hp => by have := (ih (i + 1)).1 p hp; omega, (ih (i + 1)).2⟩
    · have heq : (sortedScan byFn ic (x :: xs) i).1
          = (i, if ic then jsToUpperCase (sortValue byFn x) else sortValue byFn x)
              :: (sortedScan byFn ic xs (i + 1)).1 := by
        simp [sortedScan, hm]
      rw [heq]
      constructor
      · intro p hp
        rcases List.mem_cons.mp hp with rfl | hp2
        · exact Nat.le_refl _
        · have := (ih (i + 1)).1 p hp2; omega
      · rw [List.pairwise_cons]
        refine ⟨fun p hp => ?_, (ih (i + 1)).2⟩
        have := (ih (i + 1)).1 p hp
        simpa using by omega

/-- The value-homogeneity hypothesis under which the comparator built by
`sorted` is consistent (the JS engine makes no guarantee otherwise): the
computed sort values are either all strings, or all numbers with
`ignoreCase` unset (`toUpperCase` on a number would throw in JS), and a
set `localeCompare` requires string values and a lawful host comparison. -/
def SortableValues (locCmp : String → String → Int) (lc ic : Bool)
    (S : List (Nat × JSVal)) : Prop :=
  (lc = false ∧ ((∀ p ∈ S, p.2.isStr = true)
      ∨ ((∀ p ∈ S, p.2.isNum = true) ∧ ic = false)))
  ∨ (lc = true ∧ (∀ p ∈ S, p.2.isStr = true) ∧ LawfulLocaleCompare locCmp)

/-- Claim C5: `sorted` follows the claimed algorithm.  There is a
rearrangement `ms` of the scanned records (index, sort value) such that
`ms` is ordered by the comparator — non-decreasing in the sort values,
with ties of strictly-equal sort values broken by the original index
(stability) — and the result is exactly: the original items read back
through `ms`'s indices, then the missing sort values (collected by the
scan in original relative order) at the tail, with the whole sequence —
missing tail included — reversed at the end when `reverse` is set. -/
theorem sorted_spec (locCmp : String → String → Int) (o : SortOptions)
    (items : List JSVal)
    (hv : SortableValues locCmp o.localeCompare o.ignoreCase
      (sortedScan o.byFn o.ignoreCase items 0).1) :
    ∃ ms : List (Nat × JSVal),
      ms.Perm (sortedScan o.byFn o.ignoreCase items 0).1
      ∧ ms.Pairwise (fun a b => mkSortFunction locCmp o.localeCompare a b ≤ 0)
      ∧ sortedJS locCmp items o
          = (if o.reverse then List.reverse else id)
              ((ms.map fun p => jsIndex items (p.1 : Int))
                ++ (sortedScan o.byFn o.ignoreCase items 0).2) := by
  set S := (sortedScan o.byFn o.ignoreCase items 0).1 with hS
  have hnd : S.Nodup := by
    have := (sortedScan_indices o.byFn o.ignoreCase items 0).2
    exact this.imp (fun h => by intro heq; rw [heq] at h; omega)
  refine ⟨jsSort (mkSortFunction locCmp o.localeCompare) S, jsSort_perm _ _, ?_, ?_⟩
  · rcases hv with ⟨hlc, hstr | ⟨hnum, _⟩⟩ | ⟨hlc, hstr, hlaw⟩
    · rw [hlc]
      obtain ⟨hsk, htr⟩ := mkSort_pair_hyps (valFacts_ordinal_str locCmp) hstr
      exact jsSort_pairwise hsk htr hnd
    · rw [hlc]
      obtain ⟨hsk, htr⟩ := mkSort_pair_hyps (valFacts_ordinal_num locCmp) hnum
      exact jsSort_pairwise hsk htr hnd
    · rw [hlc]
      obtain ⟨hsk, htr⟩ := mkSort_pair_hyps (valFacts_locale locCmp hlaw) hstr
      exact jsSort_pairwise hsk htr hnd
  · by_cases hr : o.reverse <;> simp [sortedJS, hr, hS]

/-- Witness for `sorted_spec`: numbers with a missing value,
`[2, null, 1].sorted()`. -/
theorem sorted_spec_witness :
    ∃ ms : List (Nat × JSVal),
      ms.Perm (sortedScan ({} : SortOptions).byFn ({} : SortOptions).ignoreCase
          [JSVal.num 2, JSVal.null, JSVal.num 1] 0).1
      ∧ ms.Pairwise (fun a b =>
          mkSortFunction (fun _ _ => 0) ({} : SortOptions).localeCompare a b ≤ 0)
      ∧ sortedJS (fun _ _ => 0) [JSVal.num 2, JSVal.null, JSVal.num 1] {}
          = (if ({} : SortOptions).reverse then List.reverse else id)
              ((ms.map fun p =>
                  jsIndex [JSVal.num 2, JSVal.null, JSVal.num 1] (p.1 : Int))
                ++ (sortedScan ({} : SortOptions).byFn ({} : SortOptions).ignoreCase
                    [JSVal.num 2, JSVal.null, JSVal.num 1] 0).2) :=
  sorted_spec (fun _ _ => 0) {} [JSVal.num 2, JSVal.null, JSVal.num 1]
    (Or.inl ⟨rfl, Or.inr ⟨by decide, rfl⟩⟩)

end CollectionJS
